import Mathlib

/-!
Verification of the compose-go composition engine against its specification.

The dynamic YAML tree (`map[string]any` / `[]any` / scalars in the Go source)
is modelled by the inductive type `Value`. Go maps are modelled as association
lists with pairwise-distinct keys kept in a fixed order; Go's in-place map
writes become functional updates (`updateA`). Where the Go code mutates a tree
in place, the modelled function returns the post-call value of that tree as an
explicit extra component.
-/

namespace Compose

/-- The raw YAML tree: scalar | sequence | string-keyed mapping
(spec §3; `any` values in the Go source). -/
inductive Value where
  | null : Value
  | bool : Bool → Value
  | int : Int → Value
  | str : String → Value
  | seq : List Value → Value
  | map : List (String × Value) → Value
deriving Repr

mutual

def Value.beq : Value → Value → Bool
  | .null, .null => true
  | .bool a, .bool b => a == b
  | .int a, .int b => a == b
  | .str a, .str b => a == b
  | .seq a, .seq b => Value.beqL a b
  | .map a, .map b => Value.beqM a b
  | _, _ => false

def Value.beqL : List Value → List Value → Bool
  | [], [] => true
  | a :: as, b :: bs => Value.beq a b && Value.beqL as bs
  | _, _ => false

def Value.beqM : List (String × Value) → List (String × Value) → Bool
  | [], [] => true
  | (k, a) :: as, (k', b) :: bs => k == k' && Value.beq a b && Value.beqM as bs
  | _, _ => false

end

mutual

def Value.beq_iff : ∀ a b : Value, Value.beq a b = true ↔ a = b
  | .null, b => by cases b <;> simp [Value.beq]
  | .bool x, b => by cases b <;> simp [Value.beq]
  | .int x, b => by cases b <;> simp [Value.beq]
  | .str x, b => by cases b <;> simp [Value.beq]
  | .seq l, b => by
      cases b <;> simp [Value.beq]
      exact Value.beqL_iff l _
  | .map l, b => by
      cases b <;> simp [Value.beq]
      exact Value.beqM_iff l _

def Value.beqL_iff : ∀ a b : List Value, Value.beqL a b = true ↔ a = b
  | [], b => by cases b <;> simp [Value.beqL]
  | x :: xs, b => by
      cases b with
      | nil => simp [Value.beqL]
      | cons y ys => simp [Value.beqL, Value.beq_iff x y, Value.beqL_iff xs ys]

def Value.beqM_iff : ∀ a b : List (String × Value), Value.beqM a b = true ↔ a = b
  | [], b => by cases b <;> simp [Value.beqM]
  | (k, x) :: xs, b => by
      cases b with
      | nil => simp [Value.beqM]
      | cons y ys =>
        cases y with
        | mk k' v =>
          simp [Value.beqM, Value.beq_iff x v, Value.beqM_iff xs ys, and_assoc]

end

instance : DecidableEq Value := fun a b =>
  decidable_of_iff (Value.beq a b = true) (Value.beq_iff a b)

/-- Lookup in a Go map modelled as an association list (`m[k]`). -/
def lookupA (l : List (String × Value)) (k : String) : Option Value :=
  match l with
  | [] => none
  | (k', v) :: rest => if k' = k then some v else lookupA rest k

/-- In-place Go map write `m[k] = v`: replace the entry if the key is present,
otherwise add it. -/
def updateA (l : List (String × Value)) (k : String) (v : Value) :
    List (String × Value) :=
  match l with
  | [] => [(k, v)]
  | (k', w) :: rest => if k' = k then (k, v) :: rest else (k', w) :: updateA rest k v

/-- Go `delete(m, k)`. -/
def removeKey (l : List (String × Value)) (k : String) : List (String × Value) :=
  l.filter (fun kv => kv.1 ≠ k)

/-!
## The tree path model

Modelled from the spec: the `tree` package is not under src/. Spec §3: "A tree
location identified by a sequence of segments... Paths support a glob match
operator: `*` matches exactly one segment." `p.Matches(pattern)` in the source
has the path as receiver and the pattern as argument.
-/

/-- Modelled from the spec: `tree.Path.Matches`. `*` in the pattern matches
exactly one segment of the path. -/
def pathMatches : List String → List String → Bool
  | [], [] => true
  | s :: ps, pat :: pats => (decide (pat = "*") || decide (s = pat)) && pathMatches ps pats
  | _, _ => false

/-- Byte-wise Go string comparison `a <= b`, on the character lists (identical
to the byte order on the ASCII strings compared here). -/
def charsLe : List Char → List Char → Bool
  | [], _ => true
  | _ :: _, [] => false
  | a :: as, b :: bs => if a = b then charsLe as bs else decide (a < b)

/-- Go `a <= b` on strings. -/
def strLe (a b : String) : Bool := charsLe a.toList b.toList

def charsLe_total : ∀ a b : List Char, charsLe a b = true ∨ charsLe b a = true := by
  intro a
  induction a with
  | nil => intro b; left; simp [charsLe]
  | cons x xs ih =>
      intro b
      cases b with
      | nil => right; simp [charsLe]
      | cons y ys =>
          by_cases hxy : x = y
          · subst hxy
            simp only [charsLe, if_pos rfl]
            exact ih ys
          · rcases lt_or_gt_of_ne hxy with h | h
            · left; simp [charsLe, if_neg hxy, h]
            · right
              simp [charsLe, if_neg (Ne.symm hxy), h]

def charsLe_trans :
    ∀ a b c : List Char, charsLe a b = true → charsLe b c = true → charsLe a c = true := by
  intro a
  induction a with
  | nil => intro b c _ _; simp [charsLe]
  | cons x xs ih =>
      intro b c hab hbc
      cases b with
      | nil => simp [charsLe] at hab
      | cons y ys =>
          cases c with
          | nil => simp [charsLe] at hbc
          | cons z zs =>
              simp only [charsLe] at hab hbc ⊢
              by_cases hxy : x = y
              · subst hxy
                rw [if_pos rfl] at hab
                by_cases hyz : x = z
                · subst hyz
                  rw [if_pos rfl] at hbc ⊢
                  exact ih ys zs hab hbc
                · rw [if_neg hyz] at hbc ⊢
                  exact hbc
              · rw [if_neg hxy] at hab
                have hlt : x < y := of_decide_eq_true hab
                by_cases hyz : y = z
                · subst hyz
                  rw [if_neg hxy]
                  exact hab
                · rw [if_neg hyz] at hbc
                  have hlt' : y < z := of_decide_eq_true hbc
                  have hxz : x < z := lt_trans hlt hlt'
                  rw [if_neg (ne_of_lt hxz)]
                  exact decide_eq_true hxz

instance : IsTotal String (fun a b => strLe a b = true) :=
  ⟨fun a b => charsLe_total a.toList b.toList⟩

instance : IsTrans String (fun a b => strLe a b = true) :=
  ⟨fun a b c => charsLe_trans a.toList b.toList c.toList⟩

/-- `strings.HasPrefix(k, "x-")` as used by the merge engine and the extension
grouper. -/
def startsWithXDash (k : String) : Bool :=
  match k.toList with
  | c1 :: c2 :: _ => decide (c1 = 'x') && decide (c2 = '-')
  | _ => false

/-- Splitting a character list on a separator (`strings.Split` semantics). -/
def splitOnChar (c : Char) : List Char → List (List Char)
  | [] => [[]]
  | a :: rest =>
      match splitOnChar c rest with
      | [] => [[]]
      | grp :: grps => if a = c then [] :: grp :: grps else (a :: grp) :: grps

/-- `strings.Split(s, ":")`. -/
def splitOnColon (s : String) : List String :=
  (splitOnChar ':' s.toList).map (fun l => String.mk l)

/-- Decimal digit parsing helper. -/
def parseNatAux : List Char → Nat → Option Nat
  | [], acc => some acc
  | c :: rest, acc =>
      if '0' ≤ c ∧ c ≤ '9' then parseNatAux rest (acc * 10 + (c.toNat - 48))
      else none

/-- Parsing a decimal natural number from a string (`strconv.Atoi` on
non-negative input). -/
def strToNat (s : String) : Option Nat :=
  match s.toList with
  | [] => none
  | l => parseNatAux l 0

/-!
## The merge engine (src/override/merge.go)

`mergeYaml` walks the accumulator (`e`) and the override (`o`) in lockstep.
In Go the accumulator mappings are mutated in place; the override operand is
also written to in one spot (`mergeUlimit`, see below). The model therefore
returns a pair: the merge result (or error) together with the post-call value
of the override operand `o`.

The source dispatches the special rules by iterating the `mergeSpecials` map
(arbitrary order); the six patterns are pairwise disjoint, so a fixed check
order is equivalent.
-/

/-- One-level-deep helper for `goFmtS` on composite values. -/
def goFmtSShallow : Value → String
  | .str s => s
  | .int n => toString n
  | .bool b => if b then "true" else "false"
  | .null => "<nil>"
  | .seq _ => "[...]"
  | .map _ => "map[...]"

/-- Go `fmt` rendering of a value under the `%s` verb, as used by
`fmt.Sprintf("%s=%s", k, v)` in `convertIntoSequence`. Strings print verbatim;
other scalars print with fmt's `%!s(type=value)` notice. Sequence and mapping
values (which never occur under `environment`) are rendered in fmt's bracket
style, approximated without fmt's key sorting. -/
def goFmtS : Value → String
  | .str s => s
  | .int n => "%!s(int=" ++ toString n ++ ")"
  | .bool b => "%!s(bool=" ++ (if b then "true" else "false") ++ ")"
  | .null => "<nil>"
  | .seq l => "[" ++ String.intercalate " " (l.map goFmtSShallow) ++ "]"
  | .map l => "map[" ++ String.intercalate " " (l.map (fun kv => kv.1 ++ ":" ++ goFmtSShallow kv.2)) ++ "]"

/-- `convertIntoSequence` (merge.go): a mapping becomes a `KEY=VALUE` (or bare
`KEY` for nil values) sequence sorted ascending (`slices.SortFunc` with `<`;
insertion sort by `≤` yields the same sorted list of strings); a sequence is
returned as is; anything else yields nil. -/
def convertIntoSequence (value : Value) : List Value :=
  match value with
  | .map v =>
      let seq := v.map (fun kv =>
        match kv.2 with
        | .null => kv.1
        | w => kv.1 ++ "=" ++ goFmtS w)
      (List.insertionSort (fun a b : String => strLe a b = true) seq).map Value.str
  | .seq v => v
  | _ => []

/-- `mergeEnvironment` (merge.go): convert both operands and append, base
first. The Go code names the converted base `right` and the converted override
`left`; the result is `append(right, left...)`. -/
def mergeEnvironment (c o : Value) : Except String Value :=
  .ok (.seq (convertIntoSequence c ++ convertIntoSequence o))

mutual

/-- The in-place effect of `mergeMappings(o, o, p)` as invoked by
`mergeUlimit` on the override operand: every non-`x-` mapping value is
self-merged (sequences are appended to themselves, mappings recurse, scalars
are rewritten unchanged). No special rule fires below a
`services.*.ulimits.*` path, so paths are irrelevant here. -/
def selfMergeV : Value → Value
  | .map l => .map (selfMergeM l)
  | .seq l => .seq (l ++ l)
  | x => x

def selfMergeM : List (String × Value) → List (String × Value)
  | [] => []
  | (k, v) :: rest =>
      (if startsWithXDash k then (k, v) else (k, selfMergeV v)) :: selfMergeM rest

end

/-- `mergeUlimit` (merge.go:139-145). Note: the source discards its first
(base) operand and type-asserts the override operand `o` twice — both `over`
and `base` are `o.(map[string]any)` — so when the override is a mapping the
result is `mergeMappings(o, o, p)`, the override self-merged in place, and
otherwise the override itself. The base never contributes. -/
def mergeUlimit (_c o : Value) (_p : List String) : Except String Value :=
  match o with
  | .map _ => .ok (selfMergeV o)
  | _ => .ok o

/-- Rendering of a `tree.Path` in error messages (segments joined by dots). -/
def pathStr (p : List String) : String :=
  String.intercalate "." p

mutual

/-- `mergeYaml` (merge.go:51-77) with the in-place effect on the override
operand made explicit: the first component is the merge result (the Go return
value), the second is the value of the override operand `o` after the call.
The only write reaching the override is `mergeUlimit`'s self-merge; failed Go
type assertions in `mergeLogging` are modelled as errors. -/
def mergeYaml (e o : Value) (p : List String) : Except String Value × Value :=
  if pathMatches p ["services", "*", "logging"] then
    match e, o with
    | .map config, .map other =>
        match lookupA other "driver", lookupA config "driver" with
        | some d, some d' =>
            if Value.beq d d' then
              let (r, other') := mergeMappings config other p
              (r.map Value.map, .map other')
            else (.ok o, o)
        | _, _ =>
            let (r, other') := mergeMappings config other p
            (r.map Value.map, .map other')
    | _, _ => (.error "panic: interface conversion", o)
  else if pathMatches p ["services", "*", "command"] then (.ok o, o)
  else if pathMatches p ["services", "*", "entrypoint"] then (.ok o, o)
  else if pathMatches p ["services", "*", "healthcheck", "test"] then (.ok o, o)
  else if pathMatches p ["services", "*", "environment"] then (mergeEnvironment e o, o)
  else if pathMatches p ["services", "*", "ulimits", "*"] then
    match o with
    | .map _ => (.ok (selfMergeV o), selfMergeV o)
    | _ => (.ok o, o)
  else
    match e, o with
    | .map value, .map other =>
        let (r, other') := mergeMappings value other p
        (r.map Value.map, .map other')
    | .map _, _ => (.error ("cannot override " ++ pathStr p), o)
    | .seq value, .seq other => (.ok (.seq (value ++ other)), o)
    | .seq _, _ => (.error ("cannont override " ++ pathStr p), o)
    | _, _ => (.ok o, o)

/-- `mergeMappings` (merge.go:79-94), iterating the override entries in list
order (Go map iteration order is arbitrary; the result is order-independent
except for the insertion position of new keys). Returns the merged base map
(or the first error) together with the override entries after the call. -/
def mergeMappings (mapping other : List (String × Value)) (p : List String) :
    Except String (List (String × Value)) × List (String × Value) :=
  match other with
  | [] => (.ok mapping, [])
  | (k, v) :: rest =>
      match lookupA mapping k with
      | none =>
          let (r, rest') := mergeMappings (updateA mapping k v) rest p
          (r, (k, v) :: rest')
      | some e =>
          if startsWithXDash k then
            let (r, rest') := mergeMappings (updateA mapping k v) rest p
            (r, (k, v) :: rest')
          else
            match mergeYaml e v (p ++ [k]) with
            | (.error err, v') => (.error err, (k, v') :: rest)
            | (.ok merged, v') =>
                let (r, rest') := mergeMappings (updateA mapping k merged) rest p
                (r, (k, v') :: rest')

end

/-- `Merge` (merge.go:28-34): the first operand is the accumulator, the second
the override; the result is asserted to be a mapping (always true when both
operands are mappings). -/
def Merge (right left : List (String × Value)) :
    Except String (List (String × Value)) :=
  match (mergeYaml (.map right) (.map left) []).1 with
  | .error e => .error e
  | .ok (.map m) => .ok m
  | .ok _ => .error "panic: interface conversion"

/-- The override (second) operand of `Merge` as left behind after the call,
from the explicit-effect model `mergeYaml`. -/
def mergeOverrideAfter (right left : List (String × Value)) : Value :=
  (mergeYaml (.map right) (.map left) []).2

mutual

/-- Values on which the ulimit self-merge is the identity: no nonempty
sequence value reachable through non-`x-` mapping entries. -/
def selfMergeFree : Value → Bool
  | .seq l => l.isEmpty
  | .map l => selfMergeFreeM l
  | _ => true

def selfMergeFreeM : List (String × Value) → Bool
  | [] => true
  | (k, v) :: rest =>
      (startsWithXDash k || selfMergeFree v) && selfMergeFreeM rest

end

mutual

/-- Override operands the merge walk from path `p` never writes to: every
mapping reached through non-`x-` entries (as `mergeMappings` recurses) whose
path matches `services.*.ulimits.*` must be free of nonempty sequences, so
that the in-place self-merge of `mergeUlimit` is the identity on it. -/
def overrideSafe (o : Value) (p : List String) : Bool :=
  match o with
  | .map l =>
      (if pathMatches p ["services", "*", "ulimits", "*"] then selfMergeFreeM l
       else true) && overrideSafeM l p
  | _ => true

def overrideSafeM : List (String × Value) → List String → Bool
  | [], _ => true
  | (k, v) :: rest, p =>
      (startsWithXDash k || overrideSafe v (p ++ [k])) && overrideSafeM rest p

end

/-!
## The extends cycle tracker (src/unnamed/part_000:136-170)
-/

/-- `serviceRef`: a `(filename, service)` node of the extends graph. -/
structure ServiceRef where
  filename : String
  service : String
deriving Repr, DecidableEq

/-- The "Circular reference" chain built by `cycleTracker.Add` when `toAdd`
is already tracked: a header line, a line for the first tracked node, and an
"extends" line for every later node and for `toAdd`. -/
def mkCycleError (loaded : List ServiceRef) (toAdd : ServiceRef) : String :=
  match loaded with
  | [] => ""
  | first :: rest =>
      String.intercalate "\n"
        ("Circular reference:" ::
         ("  " ++ first.service ++ " in " ++ first.filename) ::
         (rest ++ [toAdd]).map (fun r => "  extends " ++ r.service ++ " in " ++ r.filename))

/-- `cycleTracker.Add`: error when an equal node is already in the list,
otherwise append the node. The tracker state is threaded explicitly. -/
def cycleAdd (loaded : List ServiceRef) (filename service : String) :
    Except String (List ServiceRef) :=
  let toAdd : ServiceRef := ⟨filename, service⟩
  if toAdd ∈ loaded then .error (mkCycleError loaded toAdd)
  else .ok (loaded ++ [toAdd])

/-!
## Resource loaders and the extends file resolution (src/loader/extends.go)

`ResourceLoader.Load` followed by the recursive `loadYamlModel` invocation
(lines 63-88) performs I/O and re-runs the whole pipeline; it is abstracted
here into `RLoader.load`, which returns the `services` mapping of the model
loaded from the path (or the error of that recursive load). `Accept` stays a
pure predicate on the path, as in the source.
-/

/-- A registered resource loader (part_000:80-86) with the recursive load
abstracted to its observable result. -/
structure RLoader where
  accept : String → Bool
  load : String → Except String (List (String × Value))

/-- The loader iteration of `ApplyExtends` (extends.go:59-93), with the
indices of the loaders that performed `Load` recorded. Note the source loop
has no break: every accepting loader runs, each overwriting `base`, and a
lookup failure in any accepting loader's file aborts with an error. -/
def loadersLoop (loaders : List RLoader) (path ref name : String)
    (base : Option Value) (idx : Nat) :
    Except String (Option Value) × List Nat :=
  match loaders with
  | [] => (.ok base, [])
  | l :: rest =>
      if l.accept path then
        match l.load path with
        | .error e => (.error e, [idx])
        | .ok services =>
            match lookupA services ref with
            | none =>
                (.error ("cannot extend service \"" ++ name ++ "\" in " ++ path ++
                         ": service not found"), [idx])
            | some v =>
                let (r, tr) := loadersLoop rest path ref name (some v) (idx + 1)
                (r, idx :: tr)
      else loadersLoop rest path ref name base (idx + 1)

/-- Resolution of an `extends` directive with a `file` reference
(extends.go:57-96): run the loader loop, then fail with "cannot read" when no
accepting loader set a base. Also returns the list of loader indices whose
`Load` ran. -/
def resolveExtendsFile (loaders : List RLoader) (path ref name : String) :
    Except String Value × List Nat :=
  match loadersLoop loaders path ref name none 0 with
  | (.error e, tr) => (.error e, tr)
  | (.ok none, tr) => (.error ("cannot read " ++ path), tr)
  | (.ok (some v), tr) => (.ok v, tr)

mutual

/-- `deepClone` (extends.go:122-139). -/
def deepClone : Value → Value
  | .seq v => .seq (deepCloneL v)
  | .map v => .map (deepCloneM v)
  | x => x

def deepCloneL : List Value → List Value
  | [] => []
  | e :: rest => deepClone e :: deepCloneL rest

def deepCloneM : List (String × Value) → List (String × Value)
  | [] => []
  | (k, e) :: rest => (k, deepClone e) :: deepCloneM rest

end

/-- The context of one `ApplyExtends` invocation. `filename` is the
`consts.ComposeFileKey` context value; `extendService` abstracts
`override.ExtendService` (its file is not under src/; spec §4.3 step 6:
structurally the generic merge rooted at a service); `posts` abstracts each
`PostProcessor.Apply` on the synthetic one-service document, as the effect it
leaves on the cloned base mapping (extends.go:104-110, result discarded). -/
structure ExtendsEnv where
  filename : String
  loaders : List RLoader
  extendService : List (String × Value) → List (String × Value) →
    Except String (List (String × Value))
  posts : List (String → List (String × Value) → List (String × Value))

/-- The `extends` directive normalization of `ApplyExtends` (extends.go:44-54):
a mapping yields its `service` reference (a failed string assertion on it is a
Go panic, modelled as an error) and optional `file`; a plain string is the
reference itself; any other type leaves the reference empty with no file. -/
def extendsRefFile (x : Value) : Except String (String × Option Value) :=
  match x with
  | .map v =>
      match lookupA v "service" with
      | some (.str r) => .ok (r, lookupA v "file")
      | _ => .error "panic: interface conversion"
  | .str r => .ok (r, none)
  | _ => .ok ("", none)

/-- The base-service resolution of `ApplyExtends` (extends.go:56-102): with a
`file` reference, run the resource-loader loop; without one, look the
reference up in the current `services` mapping (the source's error message
carries the literal string "filename"; see the TODO at extends.go:100). -/
def extendsBase (env : ExtendsEnv) (services : List (String × Value))
    (name ref : String) (file : Option Value) : Except String Value :=
  match file with
  | some (.str path) => (resolveExtendsFile env.loaders path ref name).1
  | some _ => .error "panic: interface conversion"
  | none =>
      match lookupA services ref with
      | some b => .ok b
      | none =>
          .error ("cannot extend service \"" ++ name ++
                  "\" in filename: service not found")

/-- Processing of one service carrying an `extends` key
(extends.go:41-116): track the cycle node, normalize the directive, resolve
and deep-clone the base, let the post processors touch the synthetic document,
merge, delete the `extends` key, and write the service back. -/
def applyExtendsStep (env : ExtendsEnv) (services : List (String × Value))
    (name : String) (service : List (String × Value)) (x : Value)
    (ct : List ServiceRef) :
    Except String (List (String × Value) × List ServiceRef) :=
  match cycleAdd ct env.filename name with
  | .error e => .error e
  | .ok ct' =>
      match extendsRefFile x with
      | .error e => .error e
      | .ok (ref, file) =>
          match extendsBase env services name ref file with
          | .error e => .error e
          | .ok b =>
              match deepClone b with
              | .map source =>
                  let source' := env.posts.foldl (fun sm f => f name sm) source
                  match env.extendService source' service with
                  | .error e => .error e
                  | .ok merged =>
                      .ok (updateA services name
                            (.map (removeKey merged "extends")), ct')
              | _ => .error "panic: interface conversion"

/-- The per-service loop of `ApplyExtends` (extends.go:35-117), iterating the
service names in list order (Go map iteration order is arbitrary; only the
currently visited entry is ever written, so each visited value is the
original). Failed Go type assertions are modelled as "panic" errors. The
cycle-tracker additions performed inside the abstracted recursive loads are
not modelled. -/
def applyExtendsLoop (env : ExtendsEnv) (names : List String)
    (services : List (String × Value)) (ct : List ServiceRef) :
    Except String (List (String × Value) × List ServiceRef) :=
  match names with
  | [] => .ok (services, ct)
  | name :: rest =>
      match lookupA services name with
      | none => applyExtendsLoop env rest services ct
      | some s =>
          match s with
          | .map service =>
              match lookupA service "extends" with
              | none => applyExtendsLoop env rest services ct
              | some x =>
                  match applyExtendsStep env services name service x ct with
                  | .error e => .error e
                  | .ok (services2, ct2) => applyExtendsLoop env rest services2 ct2
          | _ => .error "panic: interface conversion"

/-- `ApplyExtends` (extends.go:29-120): skip when the tree has no `services`
key; otherwise run the loop over every service and write the mapping back. -/
def ApplyExtends (env : ExtendsEnv) (dict : List (String × Value))
    (ct : List ServiceRef) :
    Except String (List (String × Value) × List ServiceRef) :=
  match lookupA dict "services" with
  | none => .ok (dict, ct)
  | some a =>
      match a with
      | .map services =>
          match applyExtendsLoop env (services.map Prod.fst) services ct with
          | .error e => .error e
          | .ok (svcs', ct') => .ok (updateA dict "services" (.map svcs'), ct')
      | _ => .error "panic: interface conversion"

/-!
## Ports canonicalization (src/transform/ports.go)
-/

/-- Modelled from the spec: `types.ParsePortConfig` is not under src/.
Spec §4.5: a short-form string "is parsed into one-or-more
`{target, published, protocol, host-ip, mode}` entries"; the representative
example (§8 scenario 1) parses "8080:80" to
`{target: 80, published: "8080", protocol: "tcp", mode: "ingress"}`. The model
handles the `published:target` and bare-`target` forms, always producing one
entry; `encode`'s reflection step (ports.go:76-87) is the identity embedding
into a string-keyed mapping here. -/
def parsePortConfig (s : String) : List (List (String × Value)) :=
  let targetVal : String → Value := fun t =>
    match strToNat t with
    | some n => .int n
    | none => .str t
  match splitOnColon s with
  | [pub, tgt] =>
      [[("target", targetVal tgt), ("published", .str pub),
        ("protocol", .str "tcp"), ("mode", .str "ingress")]]
  | _ =>
      [[("target", targetVal s), ("protocol", .str "tcp"),
        ("mode", .str "ingress")]]

/-- The per-entry expansion of `transformPorts` (ports.go:35-68): integers are
formatted with `fmt.Sprint` and parsed, strings are parsed, mappings pass
through; anything else is the "invalid type for port" error (the source
formats the offending Go type with `%T`). -/
def transformPortsList : List Value → Except String (List Value)
  | [] => .ok []
  | entry :: rest =>
      match entry with
      | .int n => do
          let rest' ← transformPortsList rest
          return (parsePortConfig (toString n)).map Value.map ++ rest'
      | .str s => do
          let rest' ← transformPortsList rest
          return (parsePortConfig s).map Value.map ++ rest'
      | .map m => do
          let rest' ← transformPortsList rest
          return .map m :: rest'
      | _ => .error "invalid type for port"

/-- `transformPorts` (ports.go:28-74): non-sequence input is the
"invalid type for port" error. -/
def transformPorts (data : Value) (_p : List String) : Except String Value :=
  match data with
  | .seq entries => (transformPortsList entries).map Value.seq
  | _ => .error "invalid type for port"

/-!
## Extension grouping (src/unnamed/part_000:538-576)

`consts.Extensions` (not under src/) is the `"extensions"` key per spec §4.7.
Note the source calls `uk.Matches(p)` with the user-defined key as the path
receiver and the current path as the pattern.
-/

/-- `userDefinedKeys` (part_000:538-544). -/
def userDefinedKeys : List (List String) :=
  [["services"], ["volumes"], ["networks"], ["secrets"], ["configs"]]

/-- The `extensions`-bucket wrap-up at the end of one
`groupXFieldsIntoExtensions` call (part_000:572-575). -/
def groupXWrap (kept extras : List (String × Value)) : List (String × Value) :=
  if extras.isEmpty then kept else updateA kept "extensions" (.map extras)

mutual

/-- One non-diverted entry value of `groupXFieldsIntoExtensions`
(part_000:561-570): a mapping value recurses at the path extended by the entry
key; a sequence value has its mapping elements recursed (at the path extended
by the element index only — the entry key is not added, as in the source);
anything else is untouched. The recursive call's `skip` test and bucket
wrap-up (part_000:547-555, 572-575) are inlined. -/
def groupXEntryVal (v : Value) (p : List String) (k : String) : Value :=
  match v with
  | .map dict =>
      let skip := userDefinedKeys.any (fun uk => pathMatches uk (p ++ [k]))
      let (kept, extras) := groupXEntries dict (p ++ [k]) skip
      .map (groupXWrap kept extras)
  | .seq l => .seq (groupXSeq l p 0)
  | x => x

/-- The entry loop of `groupXFieldsIntoExtensions` (part_000:548-571): returns
the kept entries (with recursed values) and the diverted `x-` entries (whose
values are moved without recursion, as in the source). -/
def groupXEntries (dict : List (String × Value)) (p : List String)
    (skip : Bool) : List (String × Value) × List (String × Value) :=
  match dict with
  | [] => ([], [])
  | (k, v) :: rest =>
      let (kept, extras) := groupXEntries rest p skip
      if ¬skip ∧ startsWithXDash k then (kept, (k, v) :: extras)
      else ((k, groupXEntryVal v p k) :: kept, extras)

/-- The sequence-element loop of `groupXFieldsIntoExtensions`
(part_000:565-569). -/
def groupXSeq (l : List Value) (p : List String) (i : Nat) : List Value :=
  match l with
  | [] => []
  | e :: rest => groupXSeqElem e p i :: groupXSeq rest p (i + 1)

/-- One sequence element: mapping elements recurse at the path extended by
the element index; others are untouched. -/
def groupXSeqElem (e : Value) (p : List String) (i : Nat) : Value :=
  match e with
  | .map dict =>
      let skip := userDefinedKeys.any (fun uk => pathMatches uk (p ++ [toString i]))
      let (kept, extras) := groupXEntries dict (p ++ [toString i]) skip
      .map (groupXWrap kept extras)
  | x => x

end

/-- `groupXFieldsIntoExtensions` at the top level (called with the whole tree
and the empty path from `loadYamlModel`, part_000:374). -/
def groupXFieldsIntoExtensions (dict : List (String × Value))
    (p : List String) : List (String × Value) :=
  let skip := userDefinedKeys.any (fun uk => pathMatches uk p)
  let (kept, extras) := groupXEntries dict p skip
  groupXWrap kept extras

/-!
## Project name derivation (src/unnamed/part_000:463-536)
-/

/-- ASCII case folding as performed by `strings.ToLower` on the characters
relevant here (`A`-`Z` are code points 65-90; non-ASCII letters are dropped by
the following filter either way). -/
def toLowerGo (c : Char) : Char :=
  if 65 ≤ c.toNat ∧ c.toNat ≤ 90 then Char.ofNat (c.toNat + 32) else c

/-- Membership in the `[a-z0-9_-]` class of `NormalizeProjectName`
(code points: `a`-`z` 97-122, `0`-`9` 48-57, `_` 95, `-` 45). -/
def projectNameChar (c : Char) : Bool :=
  (97 ≤ c.toNat ∧ c.toNat ≤ 122) ∨ (48 ≤ c.toNat ∧ c.toNat ≤ 57) ∨
    c.toNat = 95 ∨ c.toNat = 45

/-- `NormalizeProjectName` (part_000:531-536): lowercase, keep only
`[a-z0-9_-]` (regexp `FindAllString` joined), strip leading `_` and `-`. -/
def NormalizeProjectName (s : String) : String :=
  String.mk ((((s.toList.map toLowerGo).filter projectNameChar).dropWhile
    (fun c => c = '_' ∨ c = '-')))

/-- `InvalidProjectNameErr` (part_000:463-468). -/
def InvalidProjectNameErr (v : String) : String :=
  "invalid project name \"" ++ v ++
  "\": must consist only of lowercase alphanumeric characters, hyphens, and underscores as well as start with a letter or number"

/-- The name-collection pre-pass of `projectName` (part_000:481-503) over the
per-file parse outcomes (`ParseYAML` and the YAML decoder are abstracted to
their result). `none` models the HACK early `return "", nil` taken on a parse
failure or on a non-string `name`; otherwise the last non-empty `name` value
seen (the running value starts as the empty string). -/
def collectNameFromFiles
    (files : List (Except Unit (List (String × Value)))) (pj : String) :
    Option String :=
  match files with
  | [] => some pj
  | .error _ :: _ => none
  | .ok yml :: rest =>
      match lookupA yml "name" with
      | none => collectNameFromFiles rest pj
      | some v =>
          if v = .str "" then collectNameFromFiles rest pj
          else
            match v with
            | .str s => collectNameFromFiles rest s
            | _ => none

/-- `projectName` (part_000:476-529). `optsName` and `set` are the Options
projectName pair; `interpolate` abstracts `interp.Interpolate` on the
single-key `name` document plus the string assertion on its result;
`skipInterpolation` gates it. Note the collected name is overwritten by its
own normalization (line 514) before the `NormalizeProjectName` check at
line 524. -/
def projectNameModel (files : List (Except Unit (List (String × Value))))
    (optsName : String) (set : Bool) (skipInterpolation : Bool)
    (interpolate : String → Except String String) : Except String String :=
  let check : String → Except String String := fun projectName =>
    if projectName = "" then .error "project name must not be empty"
    else if NormalizeProjectName projectName ≠ projectName then
      .error (InvalidProjectNameErr projectName)
    else .ok projectName
  if set then check optsName
  else
    match collectNameFromFiles files "" with
    | none => .ok ""
    | some pj =>
        match (if skipInterpolation then .ok pj else interpolate pj :
                Except String String) with
        | .error e => .error e
        | .ok pj' =>
            let pj'' := NormalizeProjectName pj'
            check (if pj'' ≠ "" then pj'' else optsName)

/-!
## Options (src/unnamed/part_000:47-125)
-/

/-- `Options` (part_000:47-78). Field defaults are Go zero values. The
`Interpolate` pointer's pointee type lives outside src/, so it is a type
parameter; `ResourceLoaders` uses the loader model `RLoader`. -/
structure Options (InterpTy : Type) where
  SkipValidation : Bool := false
  SkipInterpolation : Bool := false
  SkipNormalization : Bool := false
  ResolvePaths : Bool := false
  ConvertWindowsPaths : Bool := false
  SkipConsistencyCheck : Bool := false
  SkipExtends : Bool := false
  SkipInclude : Bool := false
  SkipResolveEnvironment : Bool := false
  Interpolate : Option InterpTy := none
  discardEnvFiles : Bool := false
  projectName : String := ""
  projectNameImperativelySet : Bool := false
  Profiles : List String := []
  ResourceLoaders : List RLoader := []

/-- The conversion as the specification's merge table words it ("Convert both
operands to sorted KEY=VALUE sequence"): `convertIntoSequence` followed by an
unconditional ascending sort. Stated only to compare against the source's
`convertIntoSequence`, which sorts mapping operands but leaves sequence
operands in their given order. -/
def convertIntoSortedSequenceSpec (v : Value) : List Value :=
  (List.insertionSort (fun a b : String => strLe a b = true)
    ((convertIntoSequence v).map goFmtS)).map Value.str

/-- The entry types accepted by `transformPorts`: integer, string, or
mapping. -/
def portEntryOk : Value → Bool
  | .int _ => true
  | .str _ => true
  | .map _ => true
  | _ => false

/-- `Options.clone` (part_000:108-125): a literal listing every field except
`SkipResolveEnvironment`, which is therefore left at its zero value. -/
def Options.clone {InterpTy : Type} (o : Options InterpTy) : Options InterpTy :=
  { SkipValidation := o.SkipValidation
    SkipInterpolation := o.SkipInterpolation
    SkipNormalization := o.SkipNormalization
    ResolvePaths := o.ResolvePaths
    ConvertWindowsPaths := o.ConvertWindowsPaths
    SkipConsistencyCheck := o.SkipConsistencyCheck
    SkipExtends := o.SkipExtends
    SkipInclude := o.SkipInclude
    Interpolate := o.Interpolate
    discardEnvFiles := o.discardEnvFiles
    projectName := o.projectName
    projectNameImperativelySet := o.projectNameImperativelySet
    Profiles := o.Profiles
    ResourceLoaders := o.ResourceLoaders }

/-!
## Theorems

Support lemmas first, then one theorem per claim (with a witness where the
theorem carries hypotheses).
-/

theorem lookupA_updateA_self (l : List (String × Value)) (k : String) (v : Value) :
    lookupA (updateA l k v) k = some v := by
  induction l with
  | nil => simp [updateA, lookupA]
  | cons hd tl ih =>
      obtain ⟨k', w⟩ := hd
      by_cases h : k' = k
      · simp [updateA, lookupA, h]
      · simp [updateA, lookupA, h, ih]

theorem lookupA_eq_none_of_forall_ne (l : List (String × Value)) (k : String)
    (h : ∀ kv ∈ l, kv.1 ≠ k) : lookupA l k = none := by
  induction l with
  | nil => rfl
  | cons hd tl ih =>
      obtain ⟨k', w⟩ := hd
      have hk : k' ≠ k := h (k', w) (List.mem_cons_self _ _)
      simp only [lookupA, if_neg hk]
      exact ih (fun kv hkv => h kv (List.mem_cons_of_mem _ hkv))

/-- C1: merging two mappings at a `services.*.ulimits.*` path does not
key-union them — `mergeUlimit` reads only its override operand (both type
assertions in merge.go:140-141 are on `o`), so the base's `hard` entry is
dropped rather than merged. The claim's expected key-union differs from what
the code computes at this input. -/
theorem c1_ulimit_merge_ignores_base :
    mergeUlimit (.map [("soft", .int 10), ("hard", .int 20)]) (.map [("soft", .int 5)])
      ["services", "s", "ulimits", "nofile"] = .ok (.map [("soft", .int 5)]) ∧
    Merge
      [("services", .map [("s", .map [("ulimits", .map [("nofile",
        .map [("soft", .int 10), ("hard", .int 20)])])])])]
      [("services", .map [("s", .map [("ulimits", .map [("nofile",
        .map [("soft", .int 5)])])])])] =
      .ok [("services", .map [("s", .map [("ulimits", .map [("nofile",
        .map [("soft", .int 5)])])])])] ∧
    Value.map [("soft", .int 5)] ≠ Value.map [("soft", .int 5), ("hard", .int 20)] :=
  ⟨rfl, rfl, by decide⟩

/-- C2: with two registered loaders that both accept the path, the source's
loop (extends.go:59-93, which has no break) invokes `Load` on both — the
recorded trace is `[0, 1]`, not `[0]` — and the service supplied comes from
the second (last) accepting loader, not the first. -/
theorem c2_all_accepting_loaders_invoked :
    resolveExtendsFile
      [⟨fun _ => true, fun _ => .ok [("svc", .str "v1")]⟩,
       ⟨fun _ => true, fun _ => .ok [("svc", .str "v2")]⟩] "other.yml" "svc" "web" =
      (.ok (.str "v2"), [0, 1]) ∧
    ([0, 1] : List Nat) ≠ [0] ∧ Value.str "v2" ≠ Value.str "v1" :=
  ⟨rfl, by decide, by decide⟩

/-- C3 counterexample: a sequence override operand of the environment merge is
not sorted — converting the base `["B=2", "A=1"]` keeps it in given order, so
the merged result differs from the claim's sorted-conversion concatenation at
this input. -/
theorem c3_sequence_operand_not_sorted :
    mergeEnvironment (.seq [.str "B=2", .str "A=1"]) (.seq []) =
      .ok (.seq [.str "B=2", .str "A=1"]) ∧
    convertIntoSortedSequenceSpec (.seq [.str "B=2", .str "A=1"]) ++
      convertIntoSortedSequenceSpec (.seq []) = [.str "A=1", .str "B=2"] ∧
    ([Value.str "B=2", Value.str "A=1"] : List Value) ≠ [.str "A=1", .str "B=2"] :=
  ⟨rfl, rfl, by decide⟩

theorem pathMatches_env_shape (p : List String)
    (h : pathMatches p ["services", "*", "environment"] = true) :
    ∃ x, p = ["services", x, "environment"] := by
  match p with
  | [] => simp [pathMatches] at h
  | [a] => simp [pathMatches] at h
  | [a, b] => simp [pathMatches] at h
  | a :: b :: c :: rest =>
      match rest with
      | [] =>
          simp only [pathMatches, Bool.and_eq_true, Bool.or_eq_true,
            decide_eq_true_eq] at h
          obtain ⟨ha, -, hc, -⟩ := h
          rcases ha with ha | ha
          · exact absurd ha (by decide)
          · rcases hc with hc | hc
            · exact absurd hc (by decide)
            · exact ⟨b, by rw [ha, hc]⟩
      | d :: rest' => simp [pathMatches] at h

/-- C3 (amended): at any path matching `services.*.environment` the merge
result is the converted base followed by the converted override, where a
mapping operand is converted to an ascending-sorted `KEY=VALUE` sequence (a
sequence operand is used in its given order); in particular merging mapping
`{A:"1", B:"2"}` with sequence `["B=3","C=4"]` yields `A=1, B=2, B=3, C=4` in
that order. -/
theorem mergeYaml_env (e o : Value) (x : String) :
    mergeYaml e o ["services", x, "environment"] = (mergeEnvironment e o, o) := by
  cases o <;> rfl

theorem c3_environment_concat :
    (∀ (e o : Value) (p : List String),
        pathMatches p ["services", "*", "environment"] = true →
        (mergeYaml e o p).1 =
          .ok (.seq (convertIntoSequence e ++ convertIntoSequence o))) ∧
    (∀ m : List (String × Value),
        List.Pairwise (fun a b : Value => strLe (goFmtS a) (goFmtS b) = true)
          (convertIntoSequence (.map m))) ∧
    Merge
      [("services", .map [("web", .map [("environment",
        .map [("A", .str "1"), ("B", .str "2")])])])]
      [("services", .map [("web", .map [("environment",
        .seq [.str "B=3", .str "C=4"])])])] =
      .ok [("services", .map [("web", .map [("environment",
        .seq [.str "A=1", .str "B=2", .str "B=3", .str "C=4"])])])] := by
  refine ⟨?_, ?_, rfl⟩
  · intro e o p h
    obtain ⟨x, rfl⟩ := pathMatches_env_shape p h
    rw [mergeYaml_env]
    rfl
  · intro m
    simp only [convertIntoSequence]
    rw [List.pairwise_map]
    have hs := List.sorted_insertionSort (fun a b : String => strLe a b = true)
      (m.map (fun kv =>
        match kv.2 with
        | .null => kv.1
        | w => kv.1 ++ "=" ++ goFmtS w))
    simpa [goFmtS, List.Sorted] using hs

/-- Witness for C3: the amended environment rule evaluated at the
`services.web.environment` path on the spec's own example operands. -/
theorem c3_environment_concat_witness :
    (mergeYaml (.map [("A", .str "1"), ("B", .str "2")])
      (.seq [.str "B=3", .str "C=4"]) ["services", "web", "environment"]).1 =
      .ok (.seq [.str "A=1", .str "B=2", .str "B=3", .str "C=4"]) := by
  have h := c3_environment_concat.1 (.map [("A", .str "1"), ("B", .str "2")])
    (.seq [.str "B=3", .str "C=4"]) ["services", "web", "environment"] (by decide)
  simpa using h

/-- C4: `cycleTracker.Add` errors exactly when an equal `(filename, service)`
node is already tracked (otherwise it appends the node), and for the Add
sequence produced by the cycle `a extends b, b extends a` in one file the
error is the "Circular reference" header followed by a chain of three lines
naming `a`, `b`, `a` in that order. -/
theorem c4_cycle_add :
    (∀ (loaded : List ServiceRef) (filename service : String),
        ((cycleAdd loaded filename service).isOk = true ↔
          (⟨filename, service⟩ : ServiceRef) ∉ loaded) ∧
        ((⟨filename, service⟩ : ServiceRef) ∉ loaded →
          cycleAdd loaded filename service = .ok (loaded ++ [⟨filename, service⟩])) ∧
        ((⟨filename, service⟩ : ServiceRef) ∈ loaded →
          cycleAdd loaded filename service =
            .error (mkCycleError loaded ⟨filename, service⟩))) ∧
    cycleAdd [⟨"compose.yml", "a"⟩, ⟨"compose.yml", "b"⟩] "compose.yml" "a" =
      .error (String.intercalate "\n"
        ["Circular reference:",
         "  a in compose.yml",
         "  extends b in compose.yml",
         "  extends a in compose.yml"]) := by
  constructor
  · intro loaded filename service
    refine ⟨?_, ?_, ?_⟩
    · by_cases h : (⟨filename, service⟩ : ServiceRef) ∈ loaded <;>
        simp [cycleAdd, h, Except.isOk, Except.toBool]
    · intro h; simp [cycleAdd, h]
    · intro h; simp [cycleAdd, h]
  · rfl

/-- Witness for C4: adding a fresh node to an empty tracker succeeds and
appends it. -/
theorem c4_cycle_add_witness :
    cycleAdd [] "compose.yml" "a" = .ok [⟨"compose.yml", "a"⟩] :=
  (c4_cycle_add.1 [] "compose.yml" "a").2.1 (by simp)

/-- C8 counterexample: with the name not imperatively set and a config file
whose `name` is `"My App"` — non-empty and different from its normalization
`"myapp"` — loading does not fail: `projectName` overwrites the collected name
with its normalization before the "invalid project name" check, so it returns
the normalized name. -/
theorem c8_config_name_normalized_silently :
    projectNameModel [.ok [("name", .str "My App")]] "" false true
      (fun s => .ok s) = .ok "myapp" ∧
    NormalizeProjectName "My App" = "myapp" ∧
    "My App" ≠ "" ∧ NormalizeProjectName "My App" ≠ "My App" :=
  ⟨rfl, rfl, by decide, by decide⟩

theorem dropWhile_idem {α : Type} (p : α → Bool) (l : List α) :
    List.dropWhile p (List.dropWhile p l) = List.dropWhile p l := by
  induction l with
  | nil => rfl
  | cons a l ih =>
      by_cases h : p a = true
      · simp [List.dropWhile_cons, h, ih]
      · simp [List.dropWhile_cons, h]

theorem toLowerGo_fixed (c : Char) (h : projectNameChar c = true) : toLowerGo c = c := by
  simp only [projectNameChar, Bool.or_eq_true, decide_eq_true_eq] at h
  unfold toLowerGo
  rw [if_neg]
  rcases h with ⟨h1, h2⟩ | ⟨h1, h2⟩ | h1 | h1 <;> (rintro ⟨g1, g2⟩; omega)

theorem NormalizeProjectName_chars (s : String) :
    ∀ c ∈ (NormalizeProjectName s).toList, projectNameChar c = true := by
  intro c hc
  simp only [NormalizeProjectName] at hc
  have hmem : c ∈ ((s.toList.map toLowerGo).filter projectNameChar) :=
    (List.dropWhile_sublist _).subset hc
  exact List.of_mem_filter hmem

theorem NormalizeProjectName_idem (s : String) :
    NormalizeProjectName (NormalizeProjectName s) = NormalizeProjectName s := by
  have hchars := NormalizeProjectName_chars s
  conv_lhs => rw [NormalizeProjectName]
  have h1 : (NormalizeProjectName s).toList.map toLowerGo =
      (NormalizeProjectName s).toList := by
    rw [List.map_congr_left (fun c hc => toLowerGo_fixed c (hchars c hc))]
    simp
  rw [h1]
  have h2 : (NormalizeProjectName s).toList.filter projectNameChar =
      (NormalizeProjectName s).toList :=
    List.filter_eq_self.mpr hchars
  rw [h2]
  have h3 : List.dropWhile (fun c => decide (c = '_' ∨ c = '-'))
      (NormalizeProjectName s).toList = (NormalizeProjectName s).toList := by
    simp only [NormalizeProjectName, String.toList]
    exact dropWhile_idem _ _
  simp only [NormalizeProjectName, String.toList] at h3 ⊢
  rw [h3]

/-- C8 (amended): when the name was not imperatively set and the config files
yield a collected name that interpolates to `pj'` with a non-empty
normalization, loading succeeds with the *normalized* name — the collected
name is overwritten by its own normalization before the "invalid project
name" check, so that check never fails on this path, even when the raw name
differs from its normalization. -/
theorem c8_amended_normalized_name_used
    (files : List (Except Unit (List (String × Value)))) (optsName : String)
    (skipInterpolation : Bool) (interpolate : String → Except String String)
    (pj pj' : String)
    (hc : collectNameFromFiles files "" = some pj)
    (hi : (if skipInterpolation then Except.ok pj else interpolate pj) = .ok pj')
    (hn : NormalizeProjectName pj' ≠ "") :
    projectNameModel files optsName false skipInterpolation interpolate =
      .ok (NormalizeProjectName pj') := by
  unfold projectNameModel
  simp only [Bool.false_eq_true, if_false, hc, hi]
  rw [if_pos hn]
  rw [if_neg (fun h => hn h)]
  rw [if_neg (by rw [NormalizeProjectName_idem]; simp)]

/-- Witness for C8 (amended): the config name "My App" loads as "myapp". -/
theorem c8_amended_normalized_name_used_witness :
    projectNameModel [.ok [("name", .str "My App")]] "" false true
      (fun s => .ok s) = .ok (NormalizeProjectName "My App") :=
  c8_amended_normalized_name_used [.ok [("name", .str "My App")]] "" true
    (fun s => .ok s) "My App" "My App" rfl rfl (by decide)

theorem transformPortsList_ok (entries : List Value)
    (h : ∀ e ∈ entries, portEntryOk e = true) :
    ∃ ports, transformPortsList entries = .ok ports ∧
      ∀ q ∈ ports, ∃ m, q = .map m := by
  induction entries with
  | nil => exact ⟨[], rfl, by simp⟩
  | cons e rest ih =>
      obtain ⟨pr, hpr, hmaps⟩ := ih (fun x hx => h x (List.mem_cons_of_mem _ hx))
      have he := h e (List.mem_cons_self _ _)
      cases e with
      | int n =>
          refine ⟨(parsePortConfig (toString n)).map Value.map ++ pr, ?_, ?_⟩
          · simp [transformPortsList, hpr]
          · intro q hq
            rcases List.mem_append.mp hq with hq | hq
            · obtain ⟨m, -, rfl⟩ := List.mem_map.mp hq
              exact ⟨m, rfl⟩
            · exact hmaps q hq
      | str s =>
          refine ⟨(parsePortConfig s).map Value.map ++ pr, ?_, ?_⟩
          · simp [transformPortsList, hpr]
          · intro q hq
            rcases List.mem_append.mp hq with hq | hq
            · obtain ⟨m, -, rfl⟩ := List.mem_map.mp hq
              exact ⟨m, rfl⟩
            · exact hmaps q hq
      | map m =>
          refine ⟨.map m :: pr, ?_, ?_⟩
          · simp [transformPortsList, hpr]
          · intro q hq
            rcases List.mem_cons.mp hq with rfl | hq
            · exact ⟨m, rfl⟩
            · exact hmaps q hq
      | null => simp [portEntryOk] at he
      | bool b => simp [portEntryOk] at he
      | seq l => simp [portEntryOk] at he

theorem transformPortsList_err (entries : List Value) (e : Value)
    (hmem : e ∈ entries) (hbad : portEntryOk e = false) :
    ∃ msg, transformPortsList entries = .error msg := by
  induction entries with
  | nil => cases hmem
  | cons a rest ih =>
      rcases List.mem_cons.mp hmem with rfl | hmem'
      · cases e with
        | null => exact ⟨_, rfl⟩
        | bool b => exact ⟨_, rfl⟩
        | seq l => exact ⟨_, rfl⟩
        | int n => simp [portEntryOk] at hbad
        | str s => simp [portEntryOk] at hbad
        | map m => simp [portEntryOk] at hbad
      · cases a with
        | null => exact ⟨_, rfl⟩
        | bool b => exact ⟨_, rfl⟩
        | seq l => exact ⟨_, rfl⟩
        | int n =>
            obtain ⟨msg, hmsg⟩ := ih hmem'
            exact ⟨msg, by simp [transformPortsList, hmsg]⟩
        | str s =>
            obtain ⟨msg, hmsg⟩ := ih hmem'
            exact ⟨msg, by simp [transformPortsList, hmsg]⟩
        | map m =>
            obtain ⟨msg, hmsg⟩ := ih hmem'
            exact ⟨msg, by simp [transformPortsList, hmsg]⟩

/-- C6: on a sequence whose entries are each an integer, a string, or a
mapping, `transformPorts` succeeds and every element of the result is a
mapping (mappings pass through, integers and strings expand to one or more
parsed mapping entries); on any non-sequence input, or a sequence containing
an entry of any other type, it errors. -/
theorem c6_transform_ports :
    (∀ (entries : List Value) (p : List String),
        (∀ e ∈ entries, portEntryOk e = true) →
        ∃ ports, transformPorts (.seq entries) p = .ok (.seq ports) ∧
          ∀ q ∈ ports, ∃ m, q = .map m) ∧
    (∀ (v : Value) (p : List String), (∀ l, v ≠ .seq l) →
        ∃ msg, transformPorts v p = .error msg) ∧
    (∀ (entries : List Value) (p : List String) (e : Value),
        e ∈ entries → portEntryOk e = false →
        ∃ msg, transformPorts (.seq entries) p = .error msg) := by
  refine ⟨?_, ?_, ?_⟩
  · intro entries p h
    obtain ⟨ports, hp, hm⟩ := transformPortsList_ok entries h
    exact ⟨ports, by simp [transformPorts, hp, Except.map], hm⟩
  · intro v p h
    cases v with
    | seq l => exact absurd rfl (h l)
    | null => exact ⟨_, rfl⟩
    | bool b => exact ⟨_, rfl⟩
    | int n => exact ⟨_, rfl⟩
    | str s => exact ⟨_, rfl⟩
    | map m => exact ⟨_, rfl⟩
  · intro entries p e hmem hbad
    obtain ⟨msg, hmsg⟩ := transformPortsList_err entries e hmem hbad
    exact ⟨msg, by simp [transformPorts, hmsg, Except.map]⟩

/-- Witness for C6: a mixed integer/string/mapping ports sequence
canonicalizes to all-mapping entries. -/
theorem c6_transform_ports_witness :
    ∃ ports,
      transformPorts (.seq [.str "8080:80", .int 90, .map [("target", .int 8)]])
        ["services", "web", "ports"] = .ok (.seq ports) ∧
      ∀ q ∈ ports, ∃ m, q = .map m :=
  c6_transform_ports.1 [.str "8080:80", .int 90, .map [("target", .int 8)]]
    ["services", "web", "ports"] (by decide)

theorem lookupA_updateA_ne (l : List (String × Value)) (k' k : String) (v : Value)
    (h : k ≠ k') : lookupA (updateA l k' v) k = lookupA l k := by
  have hne : ¬(k' = k) := fun hh => h hh.symm
  induction l with
  | nil => simp [updateA, lookupA, hne]
  | cons hd tl ih =>
      obtain ⟨k0, w⟩ := hd
      by_cases h0 : k0 = k'
      · subst h0
        simp [updateA, lookupA, hne]
      · simp only [updateA, if_neg h0, lookupA]
        by_cases h1 : k0 = k
        · simp [h1]
        · simp [h1, ih]

theorem groupXEntries_skip (dict : List (String × Value)) (p : List String) :
    groupXEntries dict p true =
      (dict.map (fun kv => (kv.1, groupXEntryVal kv.2 p kv.1)), []) := by
  induction dict with
  | nil => rfl
  | cons hd tl ih =>
      obtain ⟨k, v⟩ := hd
      simp [groupXEntries, ih]

theorem groupXEntries_extras_mem (dict : List (String × Value)) (p : List String)
    (k : String) (v : Value) (hkv : (k, v) ∈ dict)
    (hx : startsWithXDash k = true) :
    (k, v) ∈ (groupXEntries dict p false).2 := by
  induction dict with
  | nil => cases hkv
  | cons hd tl ih =>
      obtain ⟨k0, v0⟩ := hd
      rcases List.mem_cons.mp hkv with heq | hmem
      · cases heq
        simp [groupXEntries, hx]
      · have := ih hmem
        simp only [groupXEntries]
        by_cases h0 : startsWithXDash k0 = true
        · simp [h0, this]
        · simp only [Bool.not_eq_true] at h0
          simp [h0, this]

theorem groupXEntries_kept_keys (dict : List (String × Value)) (p : List String) :
    ∀ kv ∈ (groupXEntries dict p false).1, startsWithXDash kv.1 = false := by
  induction dict with
  | nil => intro kv h; cases h
  | cons hd tl ih =>
      obtain ⟨k0, v0⟩ := hd
      intro kv hkv
      simp only [groupXEntries] at hkv
      by_cases h0 : startsWithXDash k0 = true
      · rw [if_pos (by simp [h0])] at hkv
        exact ih kv hkv
      · simp only [Bool.not_eq_true] at h0
        rw [if_neg (by simp [h0])] at hkv
        rcases List.mem_cons.mp hkv with rfl | hmem
        · exact h0
        · exact ih kv hmem

/-- C7: extension grouping moves every `x-` key of a mapping into that
mapping's `extensions` sub-mapping — except when the mapping's path is a
user-defined key scope (`services`, `volumes`, `networks`, `secrets`,
`configs`), where all keys stay in place; concretely, `x-foo` directly under
`services` is preserved as a service name while `x-bar` under `services.web`
moves into `services.web.extensions`. -/
theorem c7_extension_grouping :
    (∀ (dict : List (String × Value)) (p : List String),
        (userDefinedKeys.any (fun uk => pathMatches uk p)) = true →
        groupXFieldsIntoExtensions dict p =
          dict.map (fun kv => (kv.1, groupXEntryVal kv.2 p kv.1))) ∧
    (∀ (dict : List (String × Value)) (p : List String) (k : String) (v : Value),
        (userDefinedKeys.any (fun uk => pathMatches uk p)) = false →
        (k, v) ∈ dict → startsWithXDash k = true →
        lookupA (groupXFieldsIntoExtensions dict p) k = none ∧
        ∃ ex, lookupA (groupXFieldsIntoExtensions dict p) "extensions" =
          some (.map ex) ∧ (k, v) ∈ ex) ∧
    groupXFieldsIntoExtensions
      [("services", .map [("x-foo", .str "v"), ("web",
        .map [("x-bar", .str "w"), ("image", .str "img")])])] [] =
      [("services", .map [("x-foo", .str "v"), ("web",
        .map [("image", .str "img"), ("extensions", .map [("x-bar", .str "w")])])])] := by
  refine ⟨?_, ?_, rfl⟩
  · intro dict p h
    simp [groupXFieldsIntoExtensions, h, groupXEntries_skip, groupXWrap]
  · intro dict p k v h hkv hx
    have hex := groupXEntries_extras_mem dict p k v hkv hx
    have hne : (groupXEntries dict p false).2 ≠ [] := by
      intro hnil; rw [hnil] at hex; cases hex
    have hke : k ≠ "extensions" := by
      intro heq; rw [heq] at hx; simp [startsWithXDash] at hx
    constructor
    · rw [groupXFieldsIntoExtensions.eq_def]
      simp only [h, groupXWrap, List.isEmpty_eq_true, hne, if_false]
      rw [lookupA_updateA_ne _ _ _ _ hke]
      refine lookupA_eq_none_of_forall_ne _ _ (fun kv hkv' heq => ?_)
      have := groupXEntries_kept_keys dict p kv hkv'
      rw [heq, hx] at this
      cases this
    · refine ⟨(groupXEntries dict p false).2, ?_, hex⟩
      rw [groupXFieldsIntoExtensions.eq_def]
      simp only [h, groupXWrap, List.isEmpty_eq_true, hne, if_false]
      exact lookupA_updateA_self _ _ _

/-- Witness for C7: at the user-defined `services` scope every key (including
`x-` ones) is kept in place. -/
theorem c7_extension_grouping_witness :
    groupXFieldsIntoExtensions [("x-foo", .str "v")] ["services"] =
      [("x-foo", .str "v")] :=
  c7_extension_grouping.1 [("x-foo", .str "v")] ["services"] (by decide)

theorem lookupA_none_forall (l : List (String × Value)) (k : String)
    (h : lookupA l k = none) : ∀ kv ∈ l, kv.1 ≠ k := by
  induction l with
  | nil => intro kv hkv; cases hkv
  | cons hd tl ih =>
      obtain ⟨k0, v0⟩ := hd
      intro kv hkv
      by_cases h0 : k0 = k
      · simp [lookupA, h0] at h
      · simp only [lookupA, if_neg h0] at h
        rcases List.mem_cons.mp hkv with rfl | hmem
        · exact h0
        · exact ih h kv hmem

theorem lookupA_of_mem_nodup (l : List (String × Value)) (k : String) (v : Value)
    (hnd : (l.map Prod.fst).Nodup) (hkv : (k, v) ∈ l) : lookupA l k = some v := by
  induction l with
  | nil => cases hkv
  | cons hd tl ih =>
      obtain ⟨k0, v0⟩ := hd
      simp only [List.map_cons, List.nodup_cons] at hnd
      rcases List.mem_cons.mp hkv with heq | hmem
      · cases heq
        simp [lookupA]
      · have hk0 : k0 ≠ k := by
          intro heq0
          exact hnd.1 (heq0 ▸ List.mem_map_of_mem Prod.fst hmem)
        simp only [lookupA, if_neg hk0]
        exact ih hnd.2 hmem

theorem updateA_keys_of_lookup (l : List (String × Value)) (k : String)
    (e v : Value) (h : lookupA l k = some e) :
    (updateA l k v).map Prod.fst = l.map Prod.fst := by
  induction l with
  | nil => cases h
  | cons hd tl ih =>
      obtain ⟨k0, v0⟩ := hd
      by_cases h0 : k0 = k
      · subst h0
        simp [updateA]
      · simp only [lookupA, if_neg h0] at h
        simp [updateA, if_neg h0, ih h]

theorem mem_updateA_nodup (l : List (String × Value)) (k : String) (v : Value)
    (hnd : (l.map Prod.fst).Nodup) :
    ∀ kv ∈ updateA l k v, kv = (k, v) ∨ (kv ∈ l ∧ kv.1 ≠ k) := by
  induction l with
  | nil =>
      intro kv hkv
      rcases List.mem_cons.mp hkv with rfl | h
      · exact Or.inl rfl
      · cases h
  | cons hd tl ih =>
      obtain ⟨k0, v0⟩ := hd
      simp only [List.map_cons, List.nodup_cons] at hnd
      intro kv hkv
      by_cases h0 : k0 = k
      · subst h0
        simp only [updateA, if_pos rfl] at hkv
        rcases List.mem_cons.mp hkv with rfl | hmem
        · exact Or.inl rfl
        · refine Or.inr ⟨List.mem_cons_of_mem _ hmem, ?_⟩
          intro heq
          exact hnd.1 (heq ▸ List.mem_map_of_mem Prod.fst hmem)
      · simp only [updateA, if_neg h0] at hkv
        rcases List.mem_cons.mp hkv with rfl | hmem
        · exact Or.inr ⟨List.mem_cons_self _ _, h0⟩
        · rcases ih hnd.2 kv hmem with h1 | ⟨h1, h2⟩
          · exact Or.inl h1
          · exact Or.inr ⟨List.mem_cons_of_mem _ h1, h2⟩

theorem lookupA_removeKey (l : List (String × Value)) (k : String) :
    lookupA (removeKey l k) k = none := by
  induction l with
  | nil => rfl
  | cons hd tl ih =>
      obtain ⟨k0, v0⟩ := hd
      by_cases h0 : k0 = k
      · simpa [removeKey, List.filter_cons, h0] using ih
      · simpa [removeKey, List.filter_cons, h0, lookupA] using ih

theorem applyExtendsStep_shape (env : ExtendsEnv)
    (services : List (String × Value)) (name : String)
    (service : List (String × Value)) (x : Value) (ct : List ServiceRef)
    (services2 : List (String × Value)) (ct2 : List ServiceRef)
    (h : applyExtendsStep env services name service x ct = .ok (services2, ct2)) :
    ∃ m', lookupA m' "extends" = none ∧
      services2 = updateA services name (.map m') := by
  unfold applyExtendsStep at h
  cases hca : cycleAdd ct env.filename name with
  | error e => simp [hca] at h
  | ok ct' =>
      rw [hca] at h
      dsimp only at h
      cases hrf : extendsRefFile x with
      | error e => simp [hrf] at h
      | ok rf =>
          obtain ⟨ref, file⟩ := rf
          rw [hrf] at h
          dsimp only at h
          cases hb : extendsBase env services name ref file with
          | error e => simp [hb] at h
          | ok b =>
              rw [hb] at h
              dsimp only at h
              cases hdc : deepClone b with
              | map source =>
                  rw [hdc] at h
                  dsimp only at h
                  cases hes : env.extendService
                      (env.posts.foldl (fun sm f => f name sm) source) service with
                  | error e => simp [hes] at h
                  | ok merged =>
                      rw [hes] at h
                      dsimp only at h
                      injection h with h1
                      injection h1 with h2 h3
                      exact ⟨removeKey merged "extends", lookupA_removeKey _ _, h2.symm⟩
              | null => simp [hdc] at h
              | bool v => simp [hdc] at h
              | int v => simp [hdc] at h
              | str v => simp [hdc] at h
              | seq v => simp [hdc] at h

theorem applyExtendsLoop_good (env : ExtendsEnv) :
    ∀ (names : List String) (svcs : List (String × Value))
      (ct : List ServiceRef) (svcs' : List (String × Value))
      (ct' : List ServiceRef),
      (svcs.map Prod.fst).Nodup →
      (∀ kv ∈ svcs, kv.1 ∉ names → ∃ m, kv.2 = .map m ∧ lookupA m "extends" = none) →
      applyExtendsLoop env names svcs ct = .ok (svcs', ct') →
      ∀ kv ∈ svcs', ∃ m, kv.2 = .map m ∧ lookupA m "extends" = none := by
  intro names
  induction names with
  | nil =>
      intro svcs ct svcs' ct' hnd hpre h kv hkv
      simp only [applyExtendsLoop] at h
      injection h with h1
      injection h1 with h2 h3
      exact hpre kv (h2 ▸ hkv) (by simp)
  | cons name rest ih =>
      intro svcs ct svcs' ct' hnd hpre h kv hkv
      simp only [applyExtendsLoop] at h
      cases hlk : lookupA svcs name with
      | none =>
          rw [hlk] at h
          dsimp only at h
          refine ih svcs ct svcs' ct' hnd (fun kv2 hkv2 hnr => ?_) h kv hkv
          refine hpre kv2 hkv2 (fun hmem => ?_)
          rcases List.mem_cons.mp hmem with heq | hmem'
          · exact lookupA_none_forall svcs name hlk kv2 hkv2 heq
          · exact hnr hmem'
      | some s =>
          rw [hlk] at h
          dsimp only at h
          cases s with
          | map service =>
              dsimp only at h
              cases hxe : lookupA service "extends" with
              | none =>
                  rw [hxe] at h
                  dsimp only at h
                  refine ih svcs ct svcs' ct' hnd (fun kv2 hkv2 hnr => ?_) h kv hkv
                  by_cases hk2 : kv2.1 = name
                  · have : lookupA svcs kv2.1 = some kv2.2 := by
                      obtain ⟨a, b⟩ := kv2
                      exact lookupA_of_mem_nodup svcs a b hnd hkv2
                    rw [hk2, hlk] at this
                    injection this with hv
                    exact ⟨service, hv.symm, hxe⟩
                  · refine hpre kv2 hkv2 (fun hmem => ?_)
                    rcases List.mem_cons.mp hmem with heq | hmem'
                    · exact hk2 heq
                    · exact hnr hmem'
              | some x =>
                  rw [hxe] at h
                  dsimp only at h
                  cases hstep : applyExtendsStep env svcs name service x ct with
                  | error e => simp [hstep] at h
                  | ok pr =>
                      obtain ⟨svcs2, ct2⟩ := pr
                      rw [hstep] at h
                      dsimp only at h
                      obtain ⟨m', hm', rfl⟩ :=
                        applyExtendsStep_shape env svcs name service x ct svcs2 ct2 hstep
                      have hkeys : ((updateA svcs name (.map m')).map Prod.fst) =
                          svcs.map Prod.fst :=
                        updateA_keys_of_lookup svcs name _ _ hlk
                      refine ih _ ct2 svcs' ct' (hkeys ▸ hnd) (fun kv2 hkv2 hnr => ?_)
                        h kv hkv
                      rcases mem_updateA_nodup svcs name (.map m') hnd kv2 hkv2 with
                        rfl | ⟨hmem, hne⟩
                      · exact ⟨m', rfl, hm'⟩
                      · refine hpre kv2 hmem (fun hmem2 => ?_)
                        rcases List.mem_cons.mp hmem2 with heq | hmem'
                        · exact hne heq
                        · exact hnr hmem'
          | null => simp at h
          | bool v => simp at h
          | int v => simp at h
          | str v => simp at h
          | seq v => simp at h

/-- C5: whenever `ApplyExtends` returns without error on a tree whose
`services` value is a mapping (with distinct service names, as Go maps have),
no service entry of the resulting `services` mapping contains an `extends`
key — for every resolution environment, post processors, and `ExtendService`
implementation, since the `extends` key is deleted from every merged service
and untouched services never had one. -/
theorem c5_no_extends_after_apply (env : ExtendsEnv)
    (dict : List (String × Value)) (ct : List ServiceRef)
    (dict' : List (String × Value)) (ct' : List ServiceRef)
    (svcs0 : List (String × Value))
    (hlk : lookupA dict "services" = some (.map svcs0))
    (hnd : (svcs0.map Prod.fst).Nodup)
    (h : ApplyExtends env dict ct = .ok (dict', ct')) :
    ∃ svcs', lookupA dict' "services" = some (.map svcs') ∧
      ∀ kv ∈ svcs', ∃ m, kv.2 = .map m ∧ lookupA m "extends" = none := by
  unfold ApplyExtends at h
  rw [hlk] at h
  dsimp only at h
  cases hloop : applyExtendsLoop env (svcs0.map Prod.fst) svcs0 ct with
  | error e => simp [hloop] at h
  | ok pr =>
      obtain ⟨svcs', ct2⟩ := pr
      rw [hloop] at h
      dsimp only at h
      injection h with h1
      injection h1 with h2 h3
      refine ⟨svcs', ?_, ?_⟩
      · rw [← h2]
        exact lookupA_updateA_self _ _ _
      · exact applyExtendsLoop_good env (svcs0.map Prod.fst) svcs0 ct svcs' ct2
          hnd (fun kv hkv hnot => absurd (List.mem_map_of_mem Prod.fst hkv) hnot)
          hloop

/-- Witness for C5: a two-service file where `a` extends `b` resolves with no
`extends` key left on any service. -/
theorem c5_no_extends_after_apply_witness :
    ∃ svcs', lookupA
        [("services", Value.map [("a", .map [("image", .str "j"), ("image", .str "i")]),
                                 ("b", .map [("image", .str "j")])])] "services" =
        some (.map svcs') ∧
      ∀ kv ∈ svcs', ∃ m, kv.2 = .map m ∧ lookupA m "extends" = none :=
  c5_no_extends_after_apply ⟨"f", [], fun base svc => .ok (base ++ svc), []⟩
    [("services", .map [("a", .map [("extends", .str "b"), ("image", .str "i")]),
                        ("b", .map [("image", .str "j")])])] []
    [("services", .map [("a", .map [("image", .str "j"), ("image", .str "i")]),
                        ("b", .map [("image", .str "j")])])]
    [⟨"f", "a"⟩]
    [("a", .map [("extends", .str "b"), ("image", .str "i")]),
     ("b", .map [("image", .str "j")])]
    rfl (by decide) rfl

mutual

theorem selfMergeV_fix : ∀ v : Value, selfMergeFree v = true → selfMergeV v = v
  | .null, _ => rfl
  | .bool b, _ => rfl
  | .int n, _ => rfl
  | .str s, _ => rfl
  | .seq l, h => by
      simp only [selfMergeFree, List.isEmpty_iff] at h
      simp [selfMergeV, h]
  | .map l, h => by
      simp only [selfMergeFree] at h
      simp only [selfMergeV]
      rw [selfMergeM_fix l h]

theorem selfMergeM_fix :
    ∀ l : List (String × Value), selfMergeFreeM l = true → selfMergeM l = l
  | [], _ => rfl
  | (k, v) :: rest, h => by
      simp only [selfMergeFreeM, Bool.and_eq_true, Bool.or_eq_true] at h
      obtain ⟨h1, h2⟩ := h
      by_cases hk : startsWithXDash k = true
      · simp [selfMergeM, hk, selfMergeM_fix rest h2]
      · have hv : selfMergeFree v = true := by
          rcases h1 with h1 | h1
          · exact absurd h1 hk
          · exact h1
        simp [selfMergeM, hk, selfMergeV_fix v hv, selfMergeM_fix rest h2]

end

set_option maxHeartbeats 2000000 in
mutual

theorem mergeYaml_override_preserved :
    ∀ (e o : Value) (p : List String),
      overrideSafe o p = true → (mergeYaml e o p).2 = o
  | e, o, p, h => by
      rw [mergeYaml.eq_def]
      by_cases h1 : pathMatches p ["services", "*", "logging"] = true
      · rw [if_pos h1]
        cases o with
        | map other =>
            cases e with
            | map config =>
                simp only [overrideSafe, Bool.and_eq_true] at h
                have hm := mergeMappings_override_preserved config other p h.2
                cases hmw : mergeMappings config other p with
                | mk r other' =>
                    rw [hmw] at hm
                    cases hd : lookupA other "driver" with
                    | none =>
                        cases hd' : lookupA config "driver" <;>
                          simp [hd, hd', hmw, hm]
                    | some d =>
                        cases hd' : lookupA config "driver" with
                        | none => simp [hd, hd', hmw, hm]
                        | some d' =>
                            by_cases hb : d.beq d' = true <;>
                              simp [hd, hd', hb, hmw, hm]
            | null => rfl
            | bool b => rfl
            | int n => rfl
            | str s => rfl
            | seq l => rfl
        | null => cases e <;> rfl
        | bool b => cases e <;> rfl
        | int n => cases e <;> rfl
        | str s => cases e <;> rfl
        | seq l => cases e <;> rfl
      · rw [if_neg h1]
        by_cases h2 : pathMatches p ["services", "*", "command"] = true
        · rw [if_pos h2]
        · rw [if_neg h2]
          by_cases h3 : pathMatches p ["services", "*", "entrypoint"] = true
          · rw [if_pos h3]
          · rw [if_neg h3]
            by_cases h4 : pathMatches p ["services", "*", "healthcheck", "test"] = true
            · rw [if_pos h4]
            · rw [if_neg h4]
              by_cases h5 : pathMatches p ["services", "*", "environment"] = true
              · rw [if_pos h5]
              · rw [if_neg h5]
                by_cases h6 : pathMatches p ["services", "*", "ulimits", "*"] = true
                · rw [if_pos h6]
                  cases o with
                  | map l =>
                      simp only [overrideSafe, h6, if_pos, Bool.and_eq_true] at h
                      have := selfMergeM_fix l h.1
                      simp [selfMergeV, this]
                  | null => rfl
                  | bool b => rfl
                  | int n => rfl
                  | str s => rfl
                  | seq l => rfl
                · rw [if_neg h6]
                  cases o with
                  | map other =>
                      cases e with
                      | map value =>
                          simp only [overrideSafe, h6, Bool.and_eq_true] at h
                          have hm := mergeMappings_override_preserved value other p
                            (by simpa using h.2)
                          cases hmw : mergeMappings value other p with
                          | mk r other' =>
                              rw [hmw] at hm
                              simp [hmw, hm]
                      | null => rfl
                      | bool b => rfl
                      | int n => rfl
                      | str s => rfl
                      | seq l => rfl
                  | null => cases e <;> rfl
                  | bool b => cases e <;> rfl
                  | int n => cases e <;> rfl
                  | str s => cases e <;> rfl
                  | seq l => cases e <;> rfl

theorem mergeMappings_override_preserved :
    ∀ (m other : List (String × Value)) (p : List String),
      overrideSafeM other p = true → (mergeMappings m other p).2 = other
  | m, [], p, _ => rfl
  | m, (k, v) :: rest, p, h => by
      simp only [overrideSafeM, Bool.and_eq_true, Bool.or_eq_true] at h
      obtain ⟨h1, h2⟩ := h
      rw [mergeMappings.eq_def]
      cases hlk : lookupA m k with
      | none =>
          have hr := mergeMappings_override_preserved (updateA m k v) rest p h2
          cases hmr : mergeMappings (updateA m k v) rest p with
          | mk r rest' =>
              rw [hmr] at hr
              simp [hlk, hmr, hr]
      | some e =>
          by_cases hk : startsWithXDash k = true
          · have hr := mergeMappings_override_preserved (updateA m k v) rest p h2
            cases hmr : mergeMappings (updateA m k v) rest p with
            | mk r rest' =>
                rw [hmr] at hr
                simp [hlk, hk, hmr, hr]
          · have hsafe : overrideSafe v (p ++ [k]) = true := by
              rcases h1 with h1 | h1
              · exact absurd h1 hk
              · exact h1
            have hv := mergeYaml_override_preserved e v (p ++ [k]) hsafe
            cases hmw : mergeYaml e v (p ++ [k]) with
            | mk r v' =>
                rw [hmw] at hv
                dsimp only at hv
                cases r with
                | error err => simp [hlk, hk, hmw, hv]
                | ok merged =>
                    have hr := mergeMappings_override_preserved
                      (updateA m k merged) rest p h2
                    cases hmr : mergeMappings (updateA m k merged) rest p with
                    | mk r2 rest' =>
                        rw [hmr] at hr
                        simp [hlk, hk, hmw, hmr, hv, hr]

end

/-- C9 counterexample: `Merge` succeeds on this pair of trees, yet the
override operand is mutated: its ulimit value mapping is self-merged in place
by the `services.*.ulimits.*` rule, which appends the nested sequence to
itself. -/
theorem c9_merge_mutates_override_ulimit :
    Merge
      [("services", .map [("s", .map [("ulimits", .map [("nofile", .int 1)])])])]
      [("services", .map [("s", .map [("ulimits", .map [("nofile",
        .map [("l", .seq [.str "a"])])])])])] =
      .ok [("services", .map [("s", .map [("ulimits", .map [("nofile",
        .map [("l", .seq [.str "a", .str "a"])])])])])] ∧
    mergeOverrideAfter
      [("services", .map [("s", .map [("ulimits", .map [("nofile", .int 1)])])])]
      [("services", .map [("s", .map [("ulimits", .map [("nofile",
        .map [("l", .seq [.str "a"])])])])])] =
      .map [("services", .map [("s", .map [("ulimits", .map [("nofile",
        .map [("l", .seq [.str "a", .str "a"])])])])])] ∧
    Value.map [("services", .map [("s", .map [("ulimits", .map [("nofile",
        .map [("l", .seq [.str "a", .str "a"])])])])])] ≠
      .map [("services", .map [("s", .map [("ulimits", .map [("nofile",
        .map [("l", .seq [.str "a"])])])])])] :=
  ⟨rfl, rfl, by decide⟩

/-- C9 (amended): `Merge` may mutate its accumulator (first) operand; its
override (second) operand is left structurally unchanged whenever every
mapping in the override at a path matching `services.*.ulimits.*` is free of
nonempty sequence values, and otherwise the `services.*.ulimits.*` rule
self-merges that override mapping in place, appending each nested sequence to
itself. -/
theorem c9_override_preserved_when_safe (acc ov : List (String × Value))
    (h : overrideSafe (.map ov) [] = true) :
    mergeOverrideAfter acc ov = .map ov :=
  mergeYaml_override_preserved (.map acc) (.map ov) [] h

/-- Witness for C9 (amended): an override without ulimit sequences is left
unchanged by the merge. -/
theorem c9_override_preserved_when_safe_witness :
    mergeOverrideAfter
      [("services", .map [("s", .map [("ulimits", .map [("nofile", .int 1)])])])]
      [("services", .map [("s", .map [("ulimits", .map [("nofile", .int 2)]),
                                      ("image", .str "img")])])] =
      .map [("services", .map [("s", .map [("ulimits", .map [("nofile", .int 2)]),
                                           ("image", .str "img")])])] :=
  c9_override_preserved_when_safe
    [("services", .map [("s", .map [("ulimits", .map [("nofile", .int 1)])])])]
    [("services", .map [("s", .map [("ulimits", .map [("nofile", .int 2)]),
                                    ("image", .str "img")])])]
    (by decide)

/-- C10: `Options.clone` always resets `SkipResolveEnvironment` to false (the
field is missing from the struct literal) while every other field is copied
from the receiver. -/
theorem c10_clone_resets_skip_resolve_environment {InterpTy : Type}
    (o : Options InterpTy) :
    (o.clone).SkipResolveEnvironment = false ∧
    (o.clone).SkipValidation = o.SkipValidation ∧
    (o.clone).SkipInterpolation = o.SkipInterpolation ∧
    (o.clone).SkipNormalization = o.SkipNormalization ∧
    (o.clone).ResolvePaths = o.ResolvePaths ∧
    (o.clone).ConvertWindowsPaths = o.ConvertWindowsPaths ∧
    (o.clone).SkipConsistencyCheck = o.SkipConsistencyCheck ∧
    (o.clone).SkipExtends = o.SkipExtends ∧
    (o.clone).SkipInclude = o.SkipInclude ∧
    (o.clone).Interpolate = o.Interpolate ∧
    (o.clone).discardEnvFiles = o.discardEnvFiles ∧
    (o.clone).projectName = o.projectName ∧
    (o.clone).projectNameImperativelySet = o.projectNameImperativelySet ∧
    (o.clone).Profiles = o.Profiles ∧
    (o.clone).ResourceLoaders = o.ResourceLoaders := by
  simp [Options.clone]

end Compose
